import Mathlib

/-!
Verification of the poker equity estimator (hand evaluator and MCTS engine).

The source is a single Python file.  Pure functions are embedded as Lean
functions; Python exceptions and `None` results are embedded with `Option`;
Python's pseudorandom primitives (`random.sample`, `random.choice`,
`random.shuffle`) are embedded as oracle parameters, universally quantified in
the theorems, with the contracts those primitives guarantee stated as explicit
hypotheses.
-/

set_option maxHeartbeats 1000000

namespace PokerMCTS

open List

/-- A playing card: `rank` 0–12 encodes 2,3,…,9,T,J,Q,K,A (source `Card.rank_values`)
and `suit` 0–3 encodes c,d,h,s.  Identity and equality are by (rank, suit), as in
the source `Card.__eq__`. -/
structure Card where
  rank : Fin 13
  suit : Fin 4
deriving DecidableEq, Repr

/-- The full 52-card deck, ranks in the outer loop and suits in the inner loop
(source `get_deck`). -/
def get_deck : List Card :=
  (List.finRange 13).flatMap fun r => (List.finRange 4).map fun s => ⟨r, s⟩

/-- Python tuple comparison `<` on integer tuples: lexicographic, with a strict
prefix smaller than the longer tuple.  Scores returned by `evaluate_hand` are
compared exactly this way in the source (`max`, `>` and `==` on score tuples). -/
def tupleLtB : List Nat → List Nat → Bool
  | [], [] => false
  | [], _ :: _ => true
  | _ :: _, [] => false
  | a :: l, b :: m => if a < b then true else if b < a then false else tupleLtB l m

/-- Descending sort of a list of naturals (Python `sorted(·, reverse=True)`). -/
def sortDesc (l : List Nat) : List Nat := l.insertionSort fun a b => a ≥ b

/-- Ascending sort of a list of naturals (Python `sorted(·)`). -/
def sortAsc (l : List Nat) : List Nat := l.insertionSort fun a b => a ≤ b

/-- The consecutive-run loop of source `check_straight`: tests
`unique_sorted_ranks[i] + 1 == unique_sorted_ranks[i+1]` for every adjacent pair. -/
def chainB : List Nat → Bool
  | a :: b :: t => (a + 1 == b) && chainB (b :: t)
  | _ => true

/-- Set equality of two lists (Python `set(xs) == set(ys)`). -/
def setEqB (a b : List Nat) : Bool :=
  (a.all fun x => b.contains x) && (b.all fun x => a.contains x)

/-- Source `check_straight`: `some high` embeds Python `(True, high)` and `none`
embeds `(False, None)`.  The wheel check compares `set(unique_sorted_ranks)` with
the rank values of {2,3,4,5,A}, namely {0,1,2,3,12}, and reports high rank 3
(the rank value of 5). -/
def check_straight (ranks : List Nat) : Option Nat :=
  let unique_sorted_ranks := sortAsc ranks.dedup
  if unique_sorted_ranks.length < 5 then none
  else if chainB unique_sorted_ranks then some (unique_sorted_ranks.getLastD 0)
  else if setEqB unique_sorted_ranks [0, 1, 2, 3, 12] then some 3
  else none

/-- The source's `unique_ranks`: the `Counter` keys (the distinct ranks) sorted
descending, i.e. `sorted(rank_counts.keys(), reverse=True)`. -/
def uniqueRanks (ranks : List Nat) : List Nat := sortDesc ranks.dedup

/-- The source's `counts_list`: the `Counter` values (the multiplicity of each
distinct rank) sorted descending. -/
def countsList (ranks : List Nat) : List Nat :=
  sortDesc (ranks.dedup.map fun r => ranks.count r)

/-- The source's `is_flush`: some suit among the four occurs five times in the
suit list, `any(suits.count(s) == 5 for s in Card.suits)`. -/
def isFlushB (suits : List Nat) : Bool := (List.range 4).any fun s => suits.count s == 5

/-- The selection pattern `unique_ranks[0] if rank_counts[unique_ranks[0]] == c
else unique_ranks[1]` that the source uses for `quad_rank` (c = 4), `trip_rank`
(c = 3) and the full-house `pair_rank` (c = 2). -/
def pickByCount (ranks : List Nat) (c : Nat) : Nat :=
  if ranks.count ((uniqueRanks ranks).headD 0) == c then (uniqueRanks ranks).headD 0
  else (uniqueRanks ranks).getD 1 0

/-- First distinct rank whose multiplicity is `c`:
`[r for r, k in rank_counts.items() if k == c][0]` (the source's one-pair
`pair_rank`; whenever the source reaches that indexing the list is a singleton,
so the iteration order of the `Counter` keys does not matter). -/
def rankWithCount (ranks : List Nat) (c : Nat) : Nat :=
  (ranks.dedup.filter fun r => ranks.count r == c).headD 0

/-- The source's two-pair `pair_ranks`:
`sorted([r for r, c in rank_counts.items() if c == 2], reverse=True)`. -/
def pairRanksOf (ranks : List Nat) : List Nat :=
  sortDesc (ranks.dedup.filter fun r => ranks.count r == 2)

/-- Core of source `evaluate_hand` after the rank values and suits of the sorted
cards have been extracted: every subsequent step of the source depends on the
cards only through these two lists.  `headD 0` / `getD 1 0` embed the Python
indexings `[0]` / `[1]`, which in every branch are applied to lists long enough
for the default to be unread. -/
def evalRanks (ranks : List Nat) (suits : List Nat) : List Nat :=
  if isFlushB suits && (check_straight ranks).isSome then
    [9, (check_straight ranks).getD 0]
  else if (countsList ranks).headD 0 == 4 then
    [8, pickByCount ranks 4,
      ((uniqueRanks ranks).filter fun r => r ≠ pickByCount ranks 4).headD 0]
  else if (countsList ranks).headD 0 == 3 && (countsList ranks).getD 1 0 == 2 then
    [7, pickByCount ranks 3, pickByCount ranks 2]
  else if isFlushB suits then
    6 :: uniqueRanks ranks
  else if (check_straight ranks).isSome then
    [5, (check_straight ranks).getD 0]
  else if (countsList ranks).headD 0 == 3 then
    4 :: pickByCount ranks 3 :: ((uniqueRanks ranks).filter fun r => r ≠ pickByCount ranks 3)
  else if (countsList ranks).headD 0 == 2 && (countsList ranks).getD 1 0 == 2 then
    3 :: pairRanksOf ranks ++
      [((uniqueRanks ranks).filter fun r => !(pairRanksOf ranks).contains r).headD 0]
  else if (countsList ranks).headD 0 == 2 then
    2 :: rankWithCount ranks 2 :: ((uniqueRanks ranks).filter fun r => r ≠ rankWithCount ranks 2)
  else
    1 :: uniqueRanks ranks

/-- Source `evaluate_hand`: sorts the five cards by rank value descending (the
key-based stable sort of the source), extracts rank values and suits, and
classifies.  `none` embeds the `ValueError` raised when the input does not have
exactly 5 cards. -/
def evaluate_hand (five_cards : List Card) : Option (List Nat) :=
  if five_cards.length ≠ 5 then none
  else
    let sorted_cards := five_cards.insertionSort fun a b => a.rank.val ≥ b.rank.val
    some (evalRanks (sorted_cards.map fun c => c.rank.val) (sorted_cards.map fun c => c.suit.val))

/-- Largest element of a list of scores under Python tuple comparison (Python
`max`).  The `[]` starting value compares below every nonempty score, so on a
nonempty list of nonempty scores it is never the result. -/
def maxScore (scores : List (List Nat)) : List Nat :=
  scores.foldl (fun a b => if tupleLtB a b then b else a) []

/-- Source `find_best_5_card_hand`: `none` embeds returning Python `None` when
fewer than 5 cards are available; otherwise the maximum `evaluate_hand` score
over all 5-card combinations of the 7 (or fewer) cards.  Each combination has
exactly 5 cards, so the inner `evaluate_hand` always returns `some` and the
`getD []` default is unread. -/
def find_best_5_card_hand (hole_cards community_cards : List Card) : Option (List Nat) :=
  if (hole_cards ++ community_cards).length < 5 then none
  else some (maxScore (((hole_cards ++ community_cards).sublistsLen 5).map
    fun combo => (evaluate_hand combo).getD []))

/-- The score tuple of a 5-card hand (the `getD` default is unread on hands of
exactly 5 cards, where `evaluate_hand` returns `some`). -/
def score (hand : List Card) : List Nat := (evaluate_hand hand).getD []

/-- The hand category: the first component of the score tuple. -/
def category (hand : List Card) : Nat := (score hand).headD 0

/-- Length of the score tuple returned for each category (claim C10): the
source pads nothing, so the width is fixed by the branch that produced it. -/
def catLen : Nat → Nat
  | 9 => 2
  | 8 => 3
  | 7 => 3
  | 6 => 6
  | 5 => 2
  | 4 => 4
  | 3 => 4
  | 2 => 5
  | _ => 6

/-- The rank values of a hand, in hand order. -/
def ranksOf (hand : List Card) : List Nat := hand.map fun c => c.rank.val

/-- The flush test as the spec words it: all 5 cards share one suit. -/
def specFlush (hand : List Card) : Bool :=
  match hand.map fun c => c.suit with
  | [] => true
  | s :: rest => rest.all fun x => x == s

/-- Modelled from the spec: the classification of §4.2 / claim C1, written from
the spec's wording rather than from the code — straight flush, four of a kind
(quad rank, then highest remaining kicker), full house (triple rank, pair rank),
flush (all 5 ranks descending), straight, three of a kind (triple rank, then
remaining ranks descending), two pair (higher pair, lower pair, kicker), one
pair (pair rank, then 3 kickers descending), high card (all 5 ranks
descending); each tested in this priority order, each branch terminal.  Used to
exhibit where the code diverges from the spec. -/
def specClassify (hand : List Card) : List Nat :=
  if specFlush hand && (check_straight (ranksOf hand)).isSome then
    [9, (check_straight (ranksOf hand)).getD 0]
  else if (ranksOf hand).any fun r => (ranksOf hand).count r == 4 then
    [8, rankWithCount (ranksOf hand) 4,
      (sortDesc ((ranksOf hand).filter fun r => r ≠ rankWithCount (ranksOf hand) 4)).headD 0]
  else if ((ranksOf hand).any fun r => (ranksOf hand).count r == 3) &&
      ((ranksOf hand).any fun r => (ranksOf hand).count r == 2) then
    [7, rankWithCount (ranksOf hand) 3, rankWithCount (ranksOf hand) 2]
  else if specFlush hand then
    6 :: sortDesc (ranksOf hand)
  else if (check_straight (ranksOf hand)).isSome then
    [5, (check_straight (ranksOf hand)).getD 0]
  else if (ranksOf hand).any fun r => (ranksOf hand).count r == 3 then
    4 :: rankWithCount (ranksOf hand) 3 ::
      sortDesc ((ranksOf hand).filter fun r => r ≠ rankWithCount (ranksOf hand) 3)
  else if 2 ≤ ((ranksOf hand).dedup.filter fun r => (ranksOf hand).count r == 2).length then
    3 :: pairRanksOf (ranksOf hand) ++ [rankWithCount (ranksOf hand) 1]
  else if (ranksOf hand).any fun r => (ranksOf hand).count r == 2 then
    2 :: rankWithCount (ranksOf hand) 2 ::
      sortDesc ((ranksOf hand).filter fun r => r ≠ rankWithCount (ranksOf hand) 2)
  else
    1 :: sortDesc (ranksOf hand)

/-! ### The MCTS engine

Python's pseudorandom primitives are embedded as an oracle.  Every oracle field
takes a tick — the position in the random stream — so that two calls with equal
arguments may still return different results, exactly as a stateful generator
behaves; the engine threads the tick and hands every call site a fresh one.
Theorems quantify over all oracles, so they cover every possible sequence of
results of the Python generator. -/

/-- The random primitives of the source.  `samp` and `sampC` stand for
`random.sample` on a list of card combinations and on the deck respectively;
`pick` yields the index of the child `select_child` returns — it abstracts both
`random.choice` among unvisited children and the floating-point UCB1 argmax,
since every claim proved here is independent of which child is selected (only
that it is one of the children, which the modulus in `mctsIter` enforces);
`shuffle` stands for `random.shuffle`. -/
structure Oracle where
  samp : Nat → List (List Card) → Nat → List (List Card)
  sampC : Nat → List Card → Nat → List Card
  pick : Nat → Nat → Nat
  shuffle : Nat → List Card → List Card

/-- The contract Python `random.sample(pop, k)` guarantees whenever
`k ≤ len(pop)`: the result has exactly `k` elements and is a permutation of a
sublist of the population (elements are drawn at distinct positions, without
replacement). -/
def SampOK (o : Oracle) : Prop :=
  (∀ t pop k, k ≤ pop.length → (o.samp t pop k).length = k ∧ o.samp t pop k <+~ pop) ∧
  (∀ t pop k, k ≤ pop.length → (o.sampC t pop k).length = k ∧ o.sampC t pop k <+~ pop)

/-- Source `PokerState`: hero hole cards, opponent hole cards, board, and the
remaining deck. -/
structure PokerState where
  my : List Card
  opp : List Card
  board : List Card
  deck : List Card
deriving DecidableEq, Repr

/-- Source `PokerState.__init__`.  The deck argument defaults to the full deck
when `None` or empty are passed (Python `if deck:` is falsy for both), and cards
already in play are always filtered out of the deck. -/
def mkPokerState (my_cards opp_cards board : List Card) (deck : Option (List Card)) :
    PokerState :=
  { my := my_cards, opp := opp_cards, board := board,
    deck := (match deck with
      | some (c :: cs) => c :: cs
      | _ => get_deck).filter fun c => !(my_cards ++ opp_cards ++ board).contains c }

/-- Source `PokerState.get_possible_actions` with its `random.sample` call at
stream position `t`.  Actions are uniformly lists of cards: 2-card combinations
(opponent hole cards), 3-card combinations (flop), or single cards wrapped in
one-element lists (turn and river — the `isinstance(action, Card)` dispatch in
`perform_action` makes a bare card and its one-element list interchangeable).
`sublistsLen` enumerates exactly the combinations `itertools.combinations`
yields, up to enumeration order, which only the sampling oracle sees. -/
def PokerState.get_possible_actions (s : PokerState) (o : Oracle) (t : Nat) :
    List (List Card) :=
  if s.opp.isEmpty then
    if s.deck.length < 2 then []
    else o.samp t (s.deck.sublistsLen 2) (min 1000 (s.deck.length * (s.deck.length - 1) / 2))
  else if s.board.length == 0 then
    if s.deck.length < 3 then []
    else o.samp t (s.deck.sublistsLen 3)
      (min 1000 (s.deck.length * (s.deck.length - 1) * (s.deck.length - 2) / 6))
  else if s.board.length == 3 then
    if s.deck.isEmpty then []
    else (o.sampC t s.deck (min 1000 s.deck.length)).map fun c => [c]
  else if s.board.length == 4 then
    if s.deck.isEmpty then []
    else (o.sampC t s.deck (min 1000 s.deck.length)).map fun c => [c]
  else []

/-- Source `PokerState.perform_action`: removes each dealt card from a copy of
the deck (first occurrence, when present — `list.remove` behind an `in` guard)
and files the dealt cards as the opponent hand (when it was empty) or appends
them to the board; the new state goes through the constructor, which filters
in-play cards out of the deck again. -/
def PokerState.perform_action (s : PokerState) (action : List Card) : PokerState :=
  if s.opp.isEmpty then
    mkPokerState s.my action s.board
      (some (action.foldl (fun d c => if d.contains c then d.erase c else d) s.deck))
  else
    mkPokerState s.my s.opp (s.board ++ action)
      (some (action.foldl (fun d c => if d.contains c then d.erase c else d) s.deck))

/-- The body of the `while len(current_board) < 5` loop of source `simulate`,
counted down by the number of cards still missing: each pass draws one card
from the end of the shuffled deck (Python `list.pop()`); `none` embeds the
`return 0` taken when the deck runs dry. -/
def fillBoardAux : Nat → List Card → List Card → Option (List Card × List Card)
  | 0, board, deck => some (board, deck)
  | n + 1, board, deck =>
    match deck.getLast? with
    | none => none
    | some c => fillBoardAux n (board ++ [c]) deck.dropLast

/-- The `while len(current_board) < 5` loop of source `simulate`: the loop runs
exactly `5 - board.length` times (each pass appends one card), or stops early
with `none` when the deck runs dry. -/
def fillBoard (board deck : List Card) : Option (List Card × List Card) :=
  fillBoardAux (5 - board.length) board deck

/-- The opponent-dealing step of source `simulate`: when the opponent hand is
unknown, two cards are drawn from the end of the shuffled deck (Python
`list.pop()`), after the explicit `len < 2` check; `none` embeds `return 0`.
The inner `none` arms are unreachable behind the length check. -/
def dealOpp (state : PokerState) (temp_deck : List Card) : Option (List Card × List Card) :=
  if state.opp.isEmpty then
    if temp_deck.length < 2 then none
    else match temp_deck.getLast? with
      | none => none
      | some c1 =>
        match temp_deck.dropLast.getLast? with
        | none => none
        | some c2 => some ([c1, c2], temp_deck.dropLast.dropLast)
  else some (state.opp, temp_deck)

/-- Source `simulate`: a random rollout to the river.  The deck is shuffled,
the opponent hand completed, the board filled to 5 cards, and the two
`find_best_5_card_hand` scores compared with Python tuple comparison (payoff 1
for a hero win, 1/2 for a tie, 0 otherwise).  Payoffs are sums of halves, so ℚ
models the Python float exactly.  The final wildcard arm is unreachable: after
the fill the board has at least 5 cards, so both scores are `some`. -/
def simulate (o : Oracle) (t : Nat) (state : PokerState) : ℚ :=
  match dealOpp state (o.shuffle t state.deck) with
  | none => 0
  | some (opp_cards, deck1) =>
    match fillBoard state.board deck1 with
    | none => 0
    | some (board, _) =>
      match find_best_5_card_hand state.my board, find_best_5_card_hand opp_cards board with
      | some my_score, some opp_score =>
        if tupleLtB opp_score my_score then 1
        else if my_score == opp_score then (1 : ℚ) / 2
        else 0
      | _, _ => 0

/-- Source `MCTSNode`, without the parent back-reference: backpropagation is
performed on the way out of the recursion in `mctsIter`, which updates exactly
the nodes the source's parent-walk updates. -/
inductive MCTSNode where
  | mk (state : PokerState) (children : List MCTSNode) (visits : Nat) (wins : ℚ)
      (untried_actions : List (List Card))

/-- The wrapped `PokerState` of a node. -/
def MCTSNode.state : MCTSNode → PokerState
  | .mk s _ _ _ _ => s

/-- The children list of a node. -/
def MCTSNode.children : MCTSNode → List MCTSNode
  | .mk _ c _ _ _ => c

/-- The visit count of a node. -/
def MCTSNode.visits : MCTSNode → Nat
  | .mk _ _ v _ _ => v

/-- The cumulative payoff of a node (source `wins`). -/
def MCTSNode.wins : MCTSNode → ℚ
  | .mk _ _ _ w _ => w

/-- The untried actions of a node. -/
def MCTSNode.untried : MCTSNode → List (List Card)
  | .mk _ _ _ _ u => u

/-- Source `MCTSNode.__init__`: a fresh node with the sampled legal actions of
its state. -/
def mkMCTSNode (st : PokerState) (o : Oracle) (t : Nat) : MCTSNode :=
  .mk st [] 0 0 (st.get_possible_actions o t)

/-- Source `MCTSNode.update`: one backpropagation step. -/
def MCTSNode.update : MCTSNode → ℚ → MCTSNode
  | .mk s c v w u, r => .mk s c (v + 1) (w + r) u

/-- The expansion-plus-rollout step of one iteration: pop the last untried
action (Python `list.pop()`), build the child for the resulting state, simulate
from it, and update the new child (the first backpropagation step). -/
def mctsExpandSim (o : Oracle) (t : Nat) (st : PokerState) (ch : List MCTSNode)
    (u : List (List Card)) : List MCTSNode × List (List Card) × ℚ × Nat :=
  let next_state := st.perform_action (u.getLastD [])
  let child := mkMCTSNode next_state o t
  let r := simulate o (t + 1) next_state
  (ch ++ [child.update r], u.dropLast, r, t + 2)

mutual
/-- One iteration of the source `mcts` loop from a node: the selection `while`
loop (descend while no untried actions and some children), then expansion
(source `expand` pops the last untried action and builds the child), then
`simulate` from the reached state, with every node on the path updated on the
way out of the recursion — the source's backpropagation walk through the parent
chain.  Returns the updated subtree, the rollout payoff, and the next random
stream position. -/
def mctsIter (o : Oracle) (t : Nat) : MCTSNode → MCTSNode × ℚ × Nat
  | .mk st ch v w u =>
    if u.isEmpty && !ch.isEmpty then
      match iterChild o (t + 1) ch (o.pick t ch.length % ch.length) with
      | (ch2, r, t2) => (.mk st ch2 (v + 1) (w + r) u, r, t2)
    else if !u.isEmpty then
      match mctsExpandSim o t st ch u with
      | (ch2, u2, r, t2) => (.mk st ch2 (v + 1) (w + r) u2, r, t2)
    else
      (.mk st ch (v + 1) (w + simulate o t st) u, simulate o t st, t + 1)
termination_by structural nd => nd

/-- Descends into the selected child, leaving every other child unchanged (the
source mutates the selected child's subtree in place). -/
def iterChild (o : Oracle) (t : Nat) : List MCTSNode → Nat → List MCTSNode × ℚ × Nat
  | [], _ => ([], 0, t)
  | c :: cs, 0 =>
    match mctsIter o t c with
    | (c2, r, t2) => (c2 :: cs, r, t2)
  | c :: cs, i + 1 =>
    match iterChild o t cs i with
    | (cs2, r, t2) => (c :: cs2, r, t2)
termination_by structural l => l
end

/-- The `for _ in range(n_sim)` loop of source `mcts`. -/
def mctsLoop (o : Oracle) : Nat → MCTSNode → Nat → MCTSNode × Nat
  | 0, node, t => (node, t)
  | n + 1, node, t =>
    match mctsIter o t node with
    | (node2, _, t2) => mctsLoop o n node2 t2

/-- Source `mcts`: build the root node, run `n_sim` iterations, and return
`root.wins / root.visits`. -/
def mcts (root_state : PokerState) (o : Oracle) (n_sim : Nat) : ℚ :=
  ((mctsLoop o n_sim (mkMCTSNode root_state o 0) 1).1).wins /
    (((mctsLoop o n_sim (mkMCTSNode root_state o 0) 1).1).visits : ℚ)

/-- States reachable from a root state by repeatedly applying an action drawn
from `get_possible_actions` (at any random stream position) — every state a
node of the search tree can carry. -/
inductive Reachable (o : Oracle) (root : PokerState) : PokerState → Prop where
  | refl : Reachable o root root
  | step {s : PokerState} {a : List Card} {t : Nat} : Reachable o root s →
      a ∈ s.get_possible_actions o t → Reachable o root (s.perform_action a)

/-- A concrete oracle used by the witnesses: sampling returns a prefix of the
population, selection picks index 0, shuffling leaves the list unchanged.  It
satisfies `SampOK`. -/
def takeOracle : Oracle :=
  ⟨fun _ pop k => pop.take k, fun _ pop k => pop.take k, fun _ _ => 0, fun _ l => l⟩

/-- A degenerate oracle whose sampler returns nothing; used to evaluate the
engine on concrete inputs where every node is immediately terminal. -/
def trivOracle : Oracle :=
  ⟨fun _ _ _ => [], fun _ _ _ => [], fun _ _ => 0, fun _ l => l⟩

/-! ### Basic facts about sorting and tuple comparison -/

theorem sortDesc_perm (l : List Nat) : sortDesc l ~ l := List.perm_insertionSort _ l

theorem sortDesc_sorted (l : List Nat) : (sortDesc l).Sorted fun a b => a ≥ b := by
  haveI : IsTotal Nat fun a b => a ≥ b := ⟨fun a b => Nat.le_total b a⟩
  haveI : IsTrans Nat fun a b => a ≥ b := ⟨fun a b c h1 h2 => Nat.le_trans h2 h1⟩
  exact List.sorted_insertionSort _ l

theorem sortAsc_perm (l : List Nat) : sortAsc l ~ l := List.perm_insertionSort _ l

theorem sortAsc_sorted (l : List Nat) : (sortAsc l).Sorted fun a b => a ≤ b := by
  haveI : IsTotal Nat fun a b => a ≤ b := ⟨fun a b => Nat.le_total a b⟩
  haveI : IsTrans Nat fun a b => a ≤ b := ⟨fun a b c h1 h2 => Nat.le_trans h1 h2⟩
  exact List.sorted_insertionSort _ l

theorem sortDesc_congr {l₁ l₂ : List Nat} (h : l₁ ~ l₂) : sortDesc l₁ = sortDesc l₂ := by
  haveI : IsAntisymm Nat fun a b => a ≥ b := ⟨fun a b h1 h2 => Nat.le_antisymm h2 h1⟩
  exact List.eq_of_perm_of_sorted ((sortDesc_perm l₁).trans (h.trans (sortDesc_perm l₂).symm))
    (sortDesc_sorted l₁) (sortDesc_sorted l₂)

theorem sortAsc_congr {l₁ l₂ : List Nat} (h : l₁ ~ l₂) : sortAsc l₁ = sortAsc l₂ := by
  haveI : IsAntisymm Nat fun a b => a ≤ b := ⟨fun a b h1 h2 => Nat.le_antisymm h1 h2⟩
  exact List.eq_of_perm_of_sorted ((sortAsc_perm l₁).trans (h.trans (sortAsc_perm l₂).symm))
    (sortAsc_sorted l₁) (sortAsc_sorted l₂)

theorem sortDesc_filter (p : Nat → Bool) (l : List Nat) :
    (sortDesc l).filter p = sortDesc (l.filter p) := by
  haveI : IsAntisymm Nat fun a b => a ≥ b := ⟨fun a b h1 h2 => Nat.le_antisymm h2 h1⟩
  exact List.eq_of_perm_of_sorted
    (((sortDesc_perm l).filter p).trans (sortDesc_perm (l.filter p)).symm)
    ((sortDesc_sorted l).filter p) (sortDesc_sorted (l.filter p))

theorem length_sortDesc (l : List Nat) : (sortDesc l).length = l.length :=
  (sortDesc_perm l).length_eq

theorem mem_sortDesc {x : Nat} {l : List Nat} : x ∈ sortDesc l ↔ x ∈ l :=
  (sortDesc_perm l).mem_iff

theorem tupleLtB_cons_of_lt {a b : Nat} (l m : List Nat) (h : a < b) :
    tupleLtB (a :: l) (b :: m) = true := by
  simp [tupleLtB, h]

theorem tupleLtB_trichotomy (a b : List Nat) :
    tupleLtB a b = true ∨ a = b ∨ tupleLtB b a = true := by
  induction a generalizing b with
  | nil => cases b <;> simp [tupleLtB]
  | cons x l ih =>
    cases b with
    | nil => simp [tupleLtB]
    | cons y m =>
      rcases Nat.lt_trichotomy x y with h | h | h
      · exact Or.inl (tupleLtB_cons_of_lt _ _ h)
      · subst h
        rcases ih m with h2 | h2 | h2
        · exact Or.inl (by simp [tupleLtB, h2])
        · exact Or.inr (Or.inl (by rw [h2]))
        · exact Or.inr (Or.inr (by simp [tupleLtB, h2]))
      · exact Or.inr (Or.inr (tupleLtB_cons_of_lt _ _ h))

theorem tupleLtB_asymm (a b : List Nat) :
    ¬(tupleLtB a b = true ∧ tupleLtB b a = true) := by
  induction a generalizing b with
  | nil => cases b <;> simp [tupleLtB]
  | cons x l ih =>
    cases b with
    | nil => simp [tupleLtB]
    | cons y m =>
      rintro ⟨h1, h2⟩
      simp only [tupleLtB] at h1 h2
      rcases Nat.lt_trichotomy x y with h | h | h
      · rw [if_neg (by omega), if_pos h] at h2; exact Bool.noConfusion h2
      · subst h
        simp only [if_neg (Nat.lt_irrefl x)] at h1 h2
        exact ih m ⟨h1, h2⟩
      · rw [if_neg (by omega), if_pos h] at h1; exact Bool.noConfusion h1

/-! ### Facts about the count profile of a rank list -/

theorem headD_mem {l : List Nat} (h : l ≠ []) : l.headD 0 ∈ l := by
  cases l with
  | nil => exact absurd rfl h
  | cons a t => exact List.mem_cons_self a t

theorem getD_mem {l : List Nat} {n : Nat} (h : n < l.length) (d : Nat) : l.getD n d ∈ l := by
  rw [List.getD_eq_getElem?_getD, List.getElem?_eq_getElem h]
  exact List.getElem_mem h

theorem sorted_le_headD {l : List Nat} (hs : l.Sorted fun a b => a ≥ b) {x : Nat}
    (hx : x ∈ l) : x ≤ l.headD 0 := by
  cases l with
  | nil => cases hx
  | cons a t =>
    rcases List.mem_cons.mp hx with rfl | hx
    · exact Nat.le_refl _
    · exact (List.sorted_cons.mp hs).1 x hx

theorem uniqueRanks_perm (R : List Nat) : uniqueRanks R ~ R.dedup := sortDesc_perm _

theorem uniqueRanks_nodup (R : List Nat) : (uniqueRanks R).Nodup :=
  (uniqueRanks_perm R).nodup_iff.mpr (List.nodup_dedup R)

theorem uniqueRanks_length (R : List Nat) : (uniqueRanks R).length = R.dedup.length :=
  (uniqueRanks_perm R).length_eq

theorem mem_uniqueRanks {R : List Nat} {x : Nat} : x ∈ uniqueRanks R ↔ x ∈ R :=
  (uniqueRanks_perm R).mem_iff.trans (List.mem_dedup)

theorem countsList_perm (R : List Nat) :
    countsList R ~ R.dedup.map fun r => R.count r := sortDesc_perm _

theorem countsList_sorted (R : List Nat) : (countsList R).Sorted fun a b => a ≥ b :=
  sortDesc_sorted _

theorem countsList_length (R : List Nat) : (countsList R).length = R.dedup.length :=
  (countsList_perm R).length_eq.trans (List.length_map _ _)

theorem countsList_sum (R : List Nat) : (countsList R).sum = R.length :=
  ((countsList_perm R).sum_eq).trans (List.sum_map_count_dedup_eq_length R)

theorem mem_countsList {R : List Nat} {x : Nat} :
    x ∈ countsList R ↔ ∃ r ∈ R.dedup, R.count r = x := by
  rw [(countsList_perm R).mem_iff, List.mem_map]

theorem count_countsList (R : List Nat) (x : Nat) :
    (countsList R).count x = (R.dedup.filter fun r => R.count r == x).length := by
  rw [(countsList_perm R).count_eq, List.count_eq_countP, List.countP_map,
    List.countP_eq_length_filter]
  rfl

theorem countsList_pos {R : List Nat} {x : Nat} (hx : x ∈ countsList R) : 1 ≤ x := by
  obtain ⟨r, hr, hc⟩ := mem_countsList.mp hx
  have : r ∈ R := List.mem_dedup.mp hr
  have := List.count_pos_iff.mpr this
  omega

/-- The possible descending count profiles of a 5-element list in which no value
occurs more than 4 times: the partitions of 5 with parts between 1 and 4. -/
theorem shape5 {l : List Nat} (hs : l.Sorted fun a b => a ≥ b) (hsum : l.sum = 5)
    (hb : ∀ x ∈ l, 1 ≤ x ∧ x ≤ 4) :
    l = [4, 1] ∨ l = [3, 2] ∨ l = [3, 1, 1] ∨ l = [2, 2, 1] ∨
    l = [2, 1, 1, 1] ∨ l = [1, 1, 1, 1, 1] := by
  rcases l with _ | ⟨a, _ | ⟨b, _ | ⟨c, _ | ⟨d, _ | ⟨e, _ | ⟨f, t⟩⟩⟩⟩⟩⟩
  · simp at hsum
  · have ha := hb a (by simp)
    simp_all <;> omega
  · have ha := hb a (by simp)
    have hbb := hb b (by simp)
    simp_all <;> omega
  · have ha := hb a (by simp)
    have hbb := hb b (by simp)
    have hcc := hb c (by simp)
    simp_all <;> omega
  · have ha := hb a (by simp)
    have hbb := hb b (by simp)
    have hcc := hb c (by simp)
    have hdd := hb d (by simp)
    simp_all <;> omega
  · have ha := hb a (by simp)
    have hbb := hb b (by simp)
    have hcc := hb c (by simp)
    have hdd := hb d (by simp)
    have hee := hb e (by simp)
    simp_all <;> omega
  · exfalso
    have ha := hb a (by simp)
    have hbb := hb b (by simp)
    have hcc := hb c (by simp)
    have hdd := hb d (by simp)
    have hee := hb e (by simp)
    have hff := hb f (by simp)
    have ht : 0 ≤ t.sum := Nat.zero_le _
    simp only [List.sum_cons] at hsum
    omega

/-! ### Permutation invariance of the evaluator (claim C4) -/

theorem uniqueRanks_congr {R₁ R₂ : List Nat} (h : R₁ ~ R₂) :
    uniqueRanks R₁ = uniqueRanks R₂ :=
  sortDesc_congr h.dedup

theorem countsList_congr {R₁ R₂ : List Nat} (h : R₁ ~ R₂) :
    countsList R₁ = countsList R₂ := by
  unfold countsList
  apply sortDesc_congr
  have hm : (R₁.dedup.map fun r => R₁.count r) = R₁.dedup.map fun r => R₂.count r :=
    List.map_congr_left fun r _ => h.count_eq r
  rw [hm]
  exact h.dedup.map _

theorem check_straight_congr {R₁ R₂ : List Nat} (h : R₁ ~ R₂) :
    check_straight R₁ = check_straight R₂ := by
  unfold check_straight
  rw [sortAsc_congr h.dedup]

theorem isFlushB_congr {S₁ S₂ : List Nat} (h : S₁ ~ S₂) : isFlushB S₁ = isFlushB S₂ := by
  unfold isFlushB
  simp only [h.count_eq]

theorem pickByCount_congr {R₁ R₂ : List Nat} (h : R₁ ~ R₂) (c : Nat) :
    pickByCount R₁ c = pickByCount R₂ c := by
  unfold pickByCount
  rw [uniqueRanks_congr h, h.count_eq]

theorem pairRanksOf_congr {R₁ R₂ : List Nat} (h : R₁ ~ R₂) :
    pairRanksOf R₁ = pairRanksOf R₂ := by
  unfold pairRanksOf
  apply sortDesc_congr
  have hm : (R₁.dedup.filter fun r => R₁.count r == 2) =
      R₁.dedup.filter fun r => R₂.count r == 2 :=
    List.filter_congr fun r _ => by rw [h.count_eq]
  rw [hm]
  exact h.dedup.filter _

theorem perm_eq_of_length_le_one {l₁ l₂ : List Nat} (h : l₁ ~ l₂) (hl : l₂.length ≤ 1) :
    l₁ = l₂ := by
  cases l₂ with
  | nil => exact h.eq_nil
  | cons a t =>
    cases t with
    | nil => exact List.perm_singleton.mp h
    | cons b t2 => simp at hl

theorem rankWithCount_congr {R₁ R₂ : List Nat} (h : R₁ ~ R₂) (c : Nat)
    (hu : (R₂.dedup.filter fun r => R₂.count r == c).length ≤ 1) :
    rankWithCount R₁ c = rankWithCount R₂ c := by
  unfold rankWithCount
  have hm : (R₁.dedup.filter fun r => R₁.count r == c) =
      R₁.dedup.filter fun r => R₂.count r == c :=
    List.filter_congr fun r _ => by rw [h.count_eq]
  have hfil : (R₁.dedup.filter fun r => R₁.count r == c) ~
      R₂.dedup.filter fun r => R₂.count r == c := by
    rw [hm]
    exact h.dedup.filter _
  rw [perm_eq_of_length_le_one hfil hu]

/-- When the source reaches the one-pair branch (top count 2, second count not
2), exactly one distinct rank has multiplicity 2. -/
theorem filter_count_two_le_one {R : List Nat}
    (hhd : ((countsList R).headD 0 == 2) = true)
    (hsnd : ((countsList R).getD 1 0 == 2) = false) :
    (R.dedup.filter fun r => R.count r == 2).length ≤ 1 := by
  rw [← count_countsList]
  have hs := countsList_sorted R
  rcases hcl : countsList R with _ | ⟨a, _ | ⟨b, t⟩⟩
  · simp
  · simp only [List.count_cons, List.count_nil]
    split <;> omega
  · rw [hcl] at hs hhd hsnd
    simp only [List.headD_cons, beq_iff_eq] at hhd
    simp only [List.getD_cons_succ, List.getD_cons_zero, beq_eq_false_iff_ne, ne_eq] at hsnd
    obtain ⟨h1, h2⟩ := List.sorted_cons.mp hs
    obtain ⟨h3, _⟩ := List.sorted_cons.mp h2
    have hb2 : b < 2 := by
      have := h1 b (by simp)
      omega
    have hnot : (2 : Nat) ∉ b :: t := by
      intro hm
      rcases List.mem_cons.mp hm with rfl | hm
      · omega
      · have := h3 2 hm
        omega
    subst hhd
    rw [List.count_cons_self, List.count_eq_zero.mpr hnot]

theorem evalRanks_congr {R₁ R₂ S₁ S₂ : List Nat} (hR : R₁ ~ R₂) (hS : S₁ ~ S₂) :
    evalRanks R₁ S₁ = evalRanks R₂ S₂ := by
  unfold evalRanks
  rw [isFlushB_congr hS, check_straight_congr hR, countsList_congr hR, uniqueRanks_congr hR,
    pickByCount_congr hR 4, pickByCount_congr hR 3, pickByCount_congr hR 2, pairRanksOf_congr hR]
  repeat' split
  all_goals try rfl
  rename_i h7 h8
  have hsnd : ((countsList R₂).getD 1 0 == 2) = false := by
    cases hg : ((countsList R₂).getD 1 0 == 2) with
    | false => rfl
    | true => exact absurd (by rw [Bool.and_eq_true]; exact ⟨h8, hg⟩) h7
  rw [rankWithCount_congr hR 2 (filter_count_two_le_one h8 hsnd)]

/-- Claim C4: `evaluate_hand` is invariant under any reordering of its five
input cards: the sort, the `Counter` and every downstream computation depend
only on the multiset of cards dealt. -/
theorem evaluate_hand_perm_invariant (h₁ h₂ : List Card) (hl : h₁.length = 5) (hp : h₁ ~ h₂) :
    evaluate_hand h₁ = evaluate_hand h₂ := by
  have hl₂ : h₂.length = 5 := by rw [← hp.length_eq, hl]
  unfold evaluate_hand
  rw [if_neg (by omega), if_neg (by omega)]
  have e₁ := List.perm_insertionSort (fun a b : Card => a.rank.val ≥ b.rank.val) h₁
  have e₂ := List.perm_insertionSort (fun a b : Card => a.rank.val ≥ b.rank.val) h₂
  have hperm := e₁.trans (hp.trans e₂.symm)
  exact congrArg some (evalRanks_congr (hperm.map _) (hperm.map _))

/-- Witness for C4: a one-pair hand and its reversal evaluate identically. -/
theorem evaluate_hand_perm_invariant_witness :
    ([(⟨6, 0⟩ : Card), ⟨6, 1⟩, ⟨2, 2⟩, ⟨4, 0⟩, ⟨9, 1⟩].length = 5 ∧
      [(⟨6, 0⟩ : Card), ⟨6, 1⟩, ⟨2, 2⟩, ⟨4, 0⟩, ⟨9, 1⟩] ~
        [⟨9, 1⟩, ⟨4, 0⟩, ⟨2, 2⟩, ⟨6, 1⟩, ⟨6, 0⟩]) ∧
    evaluate_hand [⟨6, 0⟩, ⟨6, 1⟩, ⟨2, 2⟩, ⟨4, 0⟩, ⟨9, 1⟩] =
      evaluate_hand [⟨9, 1⟩, ⟨4, 0⟩, ⟨2, 2⟩, ⟨6, 1⟩, ⟨6, 0⟩] :=
  ⟨⟨by decide, by decide⟩, evaluate_hand_perm_invariant _ _ (by decide) (by decide)⟩

/-! ### Score tuple lengths per category (claim C10) -/

theorem count_map_eq_length_filter {α β : Type} [DecidableEq β] (f : α → β) (l : List α)
    (b : β) : (l.map f).count b = (l.filter fun a => f a == b).length := by
  rw [List.count_eq_countP, List.countP_map, List.countP_eq_length_filter]
  rfl

/-- No rank value occurs more than 4 times among distinct cards: cards sharing a
rank must carry distinct suits, and there are only 4 suits. -/
theorem count_ranks_le_four {h : List Card} (hn : h.Nodup) (r : Nat) :
    (h.map fun c => c.rank.val).count r ≤ 4 := by
  rw [count_map_eq_length_filter]
  have hFn : (h.filter fun c => c.rank.val == r).Nodup := hn.filter _
  have hmapn : ((h.filter fun c => c.rank.val == r).map fun c => c.suit).Nodup := by
    refine List.Nodup.map_on ?_ hFn
    intro x hx y hy hxy
    have hxr := List.of_mem_filter hx
    have hyr := List.of_mem_filter hy
    simp only [beq_iff_eq] at hxr hyr
    have hrk : x.rank = y.rank := Fin.val_injective (by rw [hxr, hyr])
    cases x
    cases y
    simp_all
  have hlen := hmapn.length_le_card
  simp only [List.length_map, Fintype.card_fin] at hlen
  exact hlen

theorem isFlushB_all_eq {S : List Nat} (hl : S.length = 5) (hf : isFlushB S = true) :
    ∀ a ∈ S, ∀ b ∈ S, a = b := by
  unfold isFlushB at hf
  rw [List.any_eq_true] at hf
  obtain ⟨s, _, hs⟩ := hf
  rw [beq_iff_eq, ← hl] at hs
  have hall := List.count_eq_length.mp hs
  intro a ha b hb
  rw [← hall a ha, ← hall b hb]

/-- In a flush hand of distinct cards all suits agree, so the ranks must be
pairwise distinct. -/
theorem flush_ranks_nodup {h : List Card} (hn : h.Nodup) (hl : h.length = 5)
    (hf : isFlushB (h.map fun c => c.suit.val) = true) :
    (h.map fun c => c.rank.val).Nodup := by
  have hs := isFlushB_all_eq (by simp [hl]) hf
  refine List.Nodup.map_on ?_ hn
  intro x hx y hy hxy
  have hsuit : x.suit.val = y.suit.val :=
    hs _ (List.mem_map_of_mem _ hx) _ (List.mem_map_of_mem _ hy)
  have h1 : x.rank = y.rank := Fin.val_injective hxy
  have h2 : x.suit = y.suit := Fin.val_injective hsuit
  cases x
  cases y
  simp_all

theorem filter_ne_length {U : List Nat} (hnd : U.Nodup) {t : Nat} (ht : t ∈ U) :
    (U.filter fun r => r ≠ t).length = U.length - 1 := by
  have he : (U.filter fun r => r ≠ t) = U.filter (· != t) :=
    List.filter_congr fun x _ => by by_cases hxy : x = t <;> simp [hxy]
  rw [he, ← List.Nodup.erase_eq_filter hnd t, List.length_erase_of_mem ht]

theorem pickByCount_mem {R : List Nat} (c : Nat) (h2 : 2 ≤ (uniqueRanks R).length) :
    pickByCount R c ∈ uniqueRanks R := by
  unfold pickByCount
  split
  · refine headD_mem ?_
    intro hnil
    rw [hnil] at h2
    simp at h2
  · exact getD_mem (by omega) 0

theorem rankWithCount_mem {R : List Nat} {c : Nat}
    (hne : (R.dedup.filter fun r => R.count r == c) ≠ []) :
    rankWithCount R c ∈ uniqueRanks R := by
  unfold rankWithCount
  have hm := headD_mem hne
  exact mem_uniqueRanks.mpr (List.mem_dedup.mp (List.mem_of_mem_filter hm))

theorem pairRanksOf_length (R : List Nat) :
    (pairRanksOf R).length = (countsList R).count 2 := by
  rw [count_countsList]
  exact (sortDesc_perm _).length_eq

/-- The central length computation: on any 5-element rank list in which no rank
occurs more than 4 times (and whose ranks are distinct whenever the suits form
a flush), the tuple produced by the classifier has the width determined by the
category in its head. -/
theorem evalRanks_length {R S : List Nat} (hR : R.length = 5)
    (hc : ∀ r, R.count r ≤ 4) (hfl : isFlushB S = true → R.Nodup) :
    (evalRanks R S).length = catLen ((evalRanks R S).headD 0) := by
  have hshape := shape5 (countsList_sorted R) (by rw [countsList_sum, hR])
    (fun x hx => ⟨countsList_pos hx, by
      obtain ⟨r, _, hcnt⟩ := mem_countsList.mp hx
      rw [← hcnt]; exact hc r⟩)
  have hUCL : (uniqueRanks R).length = (countsList R).length := by
    rw [uniqueRanks_length, countsList_length]
  unfold evalRanks
  split
  · rfl
  split
  · rfl
  split
  · rfl
  split
  · -- flush branch
    rename_i h1 h2 h3 h4
    have hnd := hfl h4
    have hU : (uniqueRanks R).length = 5 := by
      rw [uniqueRanks_length, List.dedup_eq_self.mpr hnd, hR]
    simp only [List.headD_cons, List.length_cons]
    rw [hU]
    decide
  split
  · rfl
  split
  · -- three of a kind
    rename_i h1 h2 h3 h4 h5 h6
    rcases hshape with hcl | hcl | hcl | hcl | hcl | hcl
    · rw [hcl] at h2; exact absurd (by decide) h2
    · rw [hcl] at h3; exact absurd (by decide) h3
    · have hU : (uniqueRanks R).length = 3 := by
        rw [uniqueRanks_length, ← countsList_length, hcl]
        rfl
      have hmem := pickByCount_mem (R := R) 3 (by omega)
      have hflt := filter_ne_length (uniqueRanks_nodup R) hmem
      simp only [List.headD_cons, List.length_cons]
      rw [hflt, hU]
      decide
    · rw [hcl] at h6; exact absurd h6 (by decide)
    · rw [hcl] at h6; exact absurd h6 (by decide)
    · rw [hcl] at h6; exact absurd h6 (by decide)
  split
  · -- two pair
    rename_i h1 h2 h3 h4 h5 h6 h7
    rcases hshape with hcl | hcl | hcl | hcl | hcl | hcl
    · rw [hcl] at h2; exact absurd (by decide) h2
    · rw [hcl] at h3; exact absurd (by decide) h3
    · rw [hcl] at h6; exact absurd (by decide) h6
    · have hps : (pairRanksOf R).length = 2 := by
        rw [pairRanksOf_length, hcl]
        rfl
      simp only [List.cons_append, List.headD_cons, List.length_cons, List.length_append,
        List.length_nil, hps]
      decide
    · rw [hcl] at h7; exact absurd h7 (by decide)
    · rw [hcl] at h7; exact absurd h7 (by decide)
  split
  · -- one pair
    rename_i h1 h2 h3 h4 h5 h6 h7 h8
    rcases hshape with hcl | hcl | hcl | hcl | hcl | hcl
    · rw [hcl] at h2; exact absurd (by decide) h2
    · rw [hcl] at h3; exact absurd (by decide) h3
    · rw [hcl] at h6; exact absurd (by decide) h6
    · rw [hcl] at h7; exact absurd (by decide) h7
    · have hU : (uniqueRanks R).length = 4 := by
        rw [uniqueRanks_length, ← countsList_length, hcl]
        rfl
      have hflen : (R.dedup.filter fun r => R.count r == 2).length = 1 := by
        rw [← count_countsList, hcl]
        rfl
      have hmem : rankWithCount R 2 ∈ uniqueRanks R := by
        refine rankWithCount_mem ?_
        intro hnil
        rw [hnil] at hflen
        simp at hflen
      have hflt := filter_ne_length (uniqueRanks_nodup R) hmem
      simp only [List.headD_cons, List.length_cons]
      rw [hflt, hU]
      decide
    · rw [hcl] at h8; exact absurd h8 (by decide)
  · -- high card
    rename_i h1 h2 h3 h4 h5 h6 h7 h8
    rcases hshape with hcl | hcl | hcl | hcl | hcl | hcl
    · rw [hcl] at h2; exact absurd (by decide) h2
    · rw [hcl] at h3; exact absurd (by decide) h3
    · rw [hcl] at h6; exact absurd (by decide) h6
    · rw [hcl] at h7; exact absurd (by decide) h7
    · rw [hcl] at h8; exact absurd (by decide) h8
    · have hU : (uniqueRanks R).length = 5 := by
        rw [uniqueRanks_length, ← countsList_length, hcl]
        rfl
      simp only [List.headD_cons, List.length_cons]
      rw [hU]
      decide

/-! ### The structure of a score: category head, categories 1–9 -/

theorem evalRanks_cons (R S : List Nat) :
    ∃ c t, evalRanks R S = c :: t ∧ 1 ≤ c ∧ c ≤ 9 := by
  unfold evalRanks
  repeat' split
  all_goals exact ⟨_, _, rfl, by omega, by omega⟩

theorem score_eq (h : List Card) (hl : h.length = 5) :
    score h =
      evalRanks
        ((h.insertionSort fun a b => a.rank.val ≥ b.rank.val).map fun c => c.rank.val)
        ((h.insertionSort fun a b => a.rank.val ≥ b.rank.val).map fun c => c.suit.val) := by
  simp [score, evaluate_hand, hl]

theorem category_pos (h : List Card) (hl : h.length = 5) :
    1 ≤ category h ∧ category h ≤ 9 ∧ ∃ t, score h = category h :: t := by
  obtain ⟨c, t, he, h1, h9⟩ := evalRanks_cons
    ((h.insertionSort fun a b => a.rank.val ≥ b.rank.val).map fun c => c.rank.val)
    ((h.insertionSort fun a b => a.rank.val ≥ b.rank.val).map fun c => c.suit.val)
  have hs := score_eq h hl
  rw [he] at hs
  have hc : category h = c := by simp [category, hs]
  exact ⟨by omega, by omega, t, by rw [hs, hc]⟩

/-! ### Claims C1, C2, C3, C8 -/

/-- Claim C1 (code bug, three-of-a-kind branch): on the hand 2♣2♦2♥5♣9♦ the
source computes `trip_rank = unique_ranks[0] if rank_counts[unique_ranks[0]] == 3
else unique_ranks[1]`, which picks the 5 (rank value 3) although the triple is
the three 2s (rank value 0), so the score is (4, 3, 7, 0) instead of the
claimed (4, triple rank, remaining ranks descending) = (4, 0, 7, 3); the
spec-modelled classifier returns the claimed tuple, and the genuinely different
trips hand 5♣5♦5♥2♣9♦ collides with the very same code score. -/
theorem evaluate_hand_trips_misranks :
    evaluate_hand [⟨0, 0⟩, ⟨0, 1⟩, ⟨0, 2⟩, ⟨3, 0⟩, ⟨7, 1⟩] = some [4, 3, 7, 0] ∧
    specClassify [⟨0, 0⟩, ⟨0, 1⟩, ⟨0, 2⟩, ⟨3, 0⟩, ⟨7, 1⟩] = [4, 0, 7, 3] ∧
    evaluate_hand [⟨3, 0⟩, ⟨3, 1⟩, ⟨3, 2⟩, ⟨0, 0⟩, ⟨7, 1⟩] = some [4, 3, 7, 0] := by
  refine ⟨?_, ?_, ?_⟩ <;> decide

/-- Claim C2: the wheel A♣2♣3♣4♣5♣ evaluates to category 9 with tiebreak high 3,
the rank value of the 5 (ranks are encoded 2 ↦ 0, …, 5 ↦ 3, …, A ↦ 12), and its
score is strictly below the 6-high straight flush 6♣5♣4♣3♣2♣, which evaluates to
(9, 4), under the tuple comparison the source uses. -/
theorem wheel_straight_flush_below_six_high :
    evaluate_hand [⟨12, 0⟩, ⟨0, 0⟩, ⟨1, 0⟩, ⟨2, 0⟩, ⟨3, 0⟩] = some [9, 3] ∧
    evaluate_hand [⟨4, 0⟩, ⟨3, 0⟩, ⟨2, 0⟩, ⟨1, 0⟩, ⟨0, 0⟩] = some [9, 4] ∧
    tupleLtB [9, 3] [9, 4] = true := by
  refine ⟨?_, ?_, ?_⟩ <;> decide

/-- Claim C3: whenever `evaluate_hand` assigns one 5-card hand category `k` and
another category `k − 1`, the first hand's score tuple is strictly greater under
the lexicographic tuple comparison, whatever the hands' ranks are: the
comparison is decided on the category alone. -/
theorem category_monotone (H1 H2 : List Card) (k : Nat)
    (h1 : H1.length = 5) (h2 : H2.length = 5)
    (hk1 : category H1 = k) (hk2 : category H2 = k - 1) :
    tupleLtB (score H2) (score H1) = true := by
  obtain ⟨p1, _, t1, e1⟩ := category_pos H1 h1
  obtain ⟨p2, _, t2, e2⟩ := category_pos H2 h2
  rw [e1, e2, hk1, hk2]
  exact tupleLtB_cons_of_lt _ _ (by omega)

/-- Witness for C3 at concrete hands: one pair of sixes (category 2) versus an
ace-high high card (category 1). -/
theorem category_monotone_witness :
    ([(⟨6, 0⟩ : Card), ⟨6, 1⟩, ⟨2, 2⟩, ⟨4, 0⟩, ⟨9, 1⟩].length = 5 ∧
      [(⟨12, 0⟩ : Card), ⟨10, 1⟩, ⟨7, 2⟩, ⟨4, 0⟩, ⟨1, 1⟩].length = 5 ∧
      category [⟨6, 0⟩, ⟨6, 1⟩, ⟨2, 2⟩, ⟨4, 0⟩, ⟨9, 1⟩] = 2 ∧
      category [⟨12, 0⟩, ⟨10, 1⟩, ⟨7, 2⟩, ⟨4, 0⟩, ⟨1, 1⟩] = 2 - 1) ∧
    tupleLtB (score [⟨12, 0⟩, ⟨10, 1⟩, ⟨7, 2⟩, ⟨4, 0⟩, ⟨1, 1⟩])
      (score [⟨6, 0⟩, ⟨6, 1⟩, ⟨2, 2⟩, ⟨4, 0⟩, ⟨9, 1⟩]) = true :=
  ⟨⟨by decide, by decide, by decide, by decide⟩,
    category_monotone _ _ 2 (by decide) (by decide) (by decide) (by decide)⟩

/-- Claim C8: `find_best_5_card_hand` fails (returns Python `None`, the
InsufficientCards failure of the spec) exactly when the hole cards and community
cards together number fewer than 5. -/
theorem find_best_none_iff_insufficient (hole community : List Card) :
    find_best_5_card_hand hole community = none ↔ (hole ++ community).length < 5 := by
  unfold find_best_5_card_hand
  split <;> simp_all

/-- Claim C10: the score tuple is not padded — its length is a function of the
category alone (9 ↦ 2, 8 ↦ 3, 7 ↦ 3, 6 ↦ 6, 5 ↦ 2, 4 ↦ 4, 3 ↦ 4, 2 ↦ 5,
1 ↦ 6); hence any two same-category scores have equal length, so lexicographic
comparison of same-category scores never decides on tuple length, and the
comparison is a total (trichotomous, asymmetric) order on reachable scores. -/
theorem score_length_by_category (h1 h2 : List Card)
    (l1 : h1.length = 5) (n1 : h1.Nodup) (l2 : h2.length = 5) (n2 : h2.Nodup) :
    (score h1).length = catLen (category h1) ∧
    (category h1 = category h2 → (score h1).length = (score h2).length) ∧
    (tupleLtB (score h1) (score h2) = true ∨ score h1 = score h2 ∨
      tupleLtB (score h2) (score h1) = true) ∧
    ¬(tupleLtB (score h1) (score h2) = true ∧ tupleLtB (score h2) (score h1) = true) := by
  have key : ∀ h : List Card, h.length = 5 → h.Nodup →
      (score h).length = catLen (category h) := by
    intro h hl hn
    have hps := List.perm_insertionSort (fun a b : Card => a.rank.val ≥ b.rank.val) h
    have hsn : (h.insertionSort fun a b : Card => a.rank.val ≥ b.rank.val).Nodup :=
      hps.nodup_iff.mpr hn
    have hsl : (h.insertionSort fun a b : Card => a.rank.val ≥ b.rank.val).length = 5 :=
      hps.length_eq.trans hl
    have hcat : category h = (score h).headD 0 := rfl
    rw [hcat, score_eq h hl]
    exact evalRanks_length
      (by rw [List.length_map]; exact hsl)
      (fun r => count_ranks_le_four hsn r)
      (fun hf => flush_ranks_nodup hsn hsl hf)
  refine ⟨key h1 l1 n1, fun hc => ?_, tupleLtB_trichotomy _ _, tupleLtB_asymm _ _⟩
  rw [key h1 l1 n1, key h2 l2 n2, hc]

/-! ### The MCTS engine: visit counts and payoff range (claim C5) -/

theorem simulate_cases (o : Oracle) (t : Nat) (st : PokerState) :
    simulate o t st = 0 ∨ simulate o t st = 1 / 2 ∨ simulate o t st = 1 := by
  unfold simulate
  repeat' split
  all_goals simp

theorem mctsIter_visits_wins (o : Oracle) (t : Nat) (nd : MCTSNode) :
    ((mctsIter o t nd).1).visits = nd.visits + 1 ∧
    ((mctsIter o t nd).1).wins = nd.wins + (mctsIter o t nd).2.1 := by
  obtain ⟨st, ch, v, w, u⟩ := nd
  unfold mctsIter
  split
  · rcases hic : iterChild o (t + 1) ch (o.pick t ch.length % ch.length) with ⟨ch2, r, t2⟩
    exact ⟨rfl, rfl⟩
  · split
    · rcases hms : mctsExpandSim o t st ch u with ⟨ch2, u2, r, t2⟩
      exact ⟨rfl, rfl⟩
    · exact ⟨rfl, rfl⟩

theorem mctsIter_payoff (o : Oracle) (t : Nat) (nd : MCTSNode) :
    (mctsIter o t nd).2.1 = 0 ∨ (mctsIter o t nd).2.1 = 1 / 2 ∨
      (mctsIter o t nd).2.1 = 1 := by
  refine mctsIter.induct o
    (fun t nd => (mctsIter o t nd).2.1 = 0 ∨ (mctsIter o t nd).2.1 = 1 / 2 ∨
      (mctsIter o t nd).2.1 = 1)
    (fun t l i => (iterChild o t l i).2.1 = 0 ∨ (iterChild o t l i).2.1 = 1 / 2 ∨
      (iterChild o t l i).2.1 = 1)
    ?_ ?_ ?_ ?_ ?_ ?_ t nd
  · intro t s ch v w u hcond ch2 r t2 hic ih
    unfold mctsIter
    rw [if_pos hcond, hic]
    rw [hic] at ih
    exact ih
  · intro t s ch v w u hcond hu ch2 u2 r t2 hms
    unfold mctsIter
    rw [if_neg hcond, if_pos hu, hms]
    unfold mctsExpandSim at hms
    have hr : r = simulate o (t + 1) (s.perform_action (u.getLastD [])) := by
      injection hms with h1 h2
      injection h2 with h2 h3
      injection h3 with h3 h4
      exact h3.symm
    rw [hr]
    exact simulate_cases o (t + 1) _
  · intro t s ch v w u hcond hu
    unfold mctsIter
    rw [if_neg hcond, if_neg hu]
    exact simulate_cases o t s
  · intro t i
    simp [iterChild]
  · intro t c cs c2 r t2 hit ih
    unfold iterChild
    rw [hit]
    rw [hit] at ih
    exact ih
  · intro t c cs i ch2 r t2 hic ih
    unfold iterChild
    rw [hic]
    rw [hic] at ih
    exact ih

theorem mctsLoop_stats (o : Oracle) (n : Nat) :
    ∀ (nd : MCTSNode) (t : Nat),
      ((mctsLoop o n nd t).1).visits = nd.visits + n ∧
      nd.wins ≤ ((mctsLoop o n nd t).1).wins ∧
      ((mctsLoop o n nd t).1).wins ≤ nd.wins + (n : ℚ) := by
  induction n with
  | zero =>
    intro nd t
    simp [mctsLoop]
  | succ n ih =>
    intro nd t
    unfold mctsLoop
    rcases hit : mctsIter o t nd with ⟨nd2, r, t2⟩
    dsimp only
    obtain ⟨hv, hw⟩ := mctsIter_visits_wins o t nd
    have hr := mctsIter_payoff o t nd
    rw [hit] at hv hw hr
    simp only at hv hw hr
    obtain ⟨h1, h2, h3⟩ := ih nd2 t2
    have hr01 : 0 ≤ r ∧ r ≤ 1 := by
      rcases hr with hr | hr | hr <;> rw [hr] <;> norm_num
    refine ⟨by omega, ?_, ?_⟩
    · calc nd.wins ≤ nd.wins + r := by linarith [hr01.1]
      _ = nd2.wins := hw.symm
      _ ≤ (mctsLoop o n nd2 t2).1.wins := h2
    · calc (mctsLoop o n nd2 t2).1.wins ≤ nd2.wins + (n : ℚ) := h3
      _ = nd.wins + r + (n : ℚ) := by rw [hw]
      _ ≤ nd.wins + ((n : ℚ) + 1) := by linarith [hr01.2]
      _ = nd.wins + ((n + 1 : Nat) : ℚ) := by push_cast; ring

/-! ### Deck bookkeeping and the reachable-state invariant (claim C6) -/

theorem get_deck_nodup : get_deck.Nodup := by decide

theorem mem_get_deck (c : Card) : c ∈ get_deck := by
  obtain ⟨r, s⟩ := c
  unfold get_deck
  rw [List.mem_flatMap]
  exact ⟨r, List.mem_finRange r, List.mem_map_of_mem _ (List.mem_finRange s)⟩

theorem get_deck_length : get_deck.length = 52 := by decide

/-- Padding a list of fresh distinct cards with the deck cards not among them
recovers the whole deck, up to order. -/
theorem append_filter_not_mem_perm {xs l : List Card} (hx : xs.Nodup)
    (hsub : ∀ c ∈ xs, c ∈ l) (hl : l.Nodup) :
    (xs ++ l.filter fun c => !xs.contains c) ~ l := by
  rw [List.perm_iff_count]
  intro c
  rw [List.count_append]
  by_cases hc : c ∈ xs
  · have h1 : xs.count c = 1 := List.count_eq_one_of_mem hx hc
    have h2 : (l.filter fun c => !xs.contains c).count c = 0 := by
      rw [List.count_eq_zero]
      intro hmem
      have hp := List.of_mem_filter hmem
      simp only [List.contains, List.elem_eq_mem, Bool.not_eq_true',
        decide_eq_false_iff_not] at hp
      exact hp hc
    have h3 : l.count c = 1 := List.count_eq_one_of_mem hl (hsub c hc)
    omega
  · have h1 : xs.count c = 0 := List.count_eq_zero.mpr hc
    have h2 : (l.filter fun c => !xs.contains c).count c = l.count c :=
      List.count_filter (by simpa using hc)
    omega

/-- The deck-update loop of `perform_action`: removing the dealt cards (each
present once, all distinct) from the deck and putting them back in front is a
permutation of the original deck. -/
theorem erase_fold_perm :
    ∀ (a d : List Card), a.Nodup → (∀ c ∈ a, c ∈ d) →
      (a ++ a.foldl (fun d c => if d.contains c then d.erase c else d) d) ~ d := by
  intro a
  induction a with
  | nil =>
    intro d _ _
    simp
  | cons c a2 ih =>
    intro d hnd hsub
    have hcd : c ∈ d := hsub c (List.mem_cons_self c a2)
    rw [List.foldl_cons, if_pos (by simpa using hcd)]
    have hnd2 : a2.Nodup := (List.nodup_cons.mp hnd).2
    have hcn : c ∉ a2 := (List.nodup_cons.mp hnd).1
    have hsub2 : ∀ x ∈ a2, x ∈ d.erase c := by
      intro x hx
      have hxd := hsub x (List.mem_cons_of_mem c hx)
      have hxc : x ≠ c := fun he => hcn (he ▸ hx)
      exact (List.mem_erase_of_ne hxc).mpr hxd
    exact ((ih (d.erase c) hnd2 hsub2).cons c).trans (List.perm_cons_erase hcd).symm

theorem choose_three (n : Nat) : n.choose 3 = n * (n - 1) * (n - 2) / 6 := by
  rw [Nat.choose_eq_descFactorial_div_factorial]
  have hd : n.descFactorial 3 = n * (n - 1) * (n - 2) := by
    simp [Nat.descFactorial]
    ring
  rw [hd]
  rfl

/-- Any action produced by `get_possible_actions` consists of distinct cards
drawn from the state's deck. -/
theorem action_cards {s : PokerState} {o : Oracle} {t : Nat} (hS : SampOK o)
    {a : List Card} (ha : a ∈ s.get_possible_actions o t) (hdn : s.deck.Nodup) :
    a.Nodup ∧ ∀ c ∈ a, c ∈ s.deck := by
  unfold PokerState.get_possible_actions at ha
  split at ha
  · split at ha
    · simp at ha
    · have hk : min 1000 (s.deck.length * (s.deck.length - 1) / 2) ≤
          (s.deck.sublistsLen 2).length := by
        rw [List.length_sublistsLen, Nat.choose_two_right]
        exact Nat.min_le_right _ _
      have hmem := (hS.1 t _ _ hk).2.subset ha
      rw [List.mem_sublistsLen] at hmem
      exact ⟨List.Nodup.sublist hmem.1 hdn, fun c hc => hmem.1.subset hc⟩
  · split at ha
    · split at ha
      · simp at ha
      · have hk : min 1000 (s.deck.length * (s.deck.length - 1) * (s.deck.length - 2) / 6) ≤
            (s.deck.sublistsLen 3).length := by
          rw [List.length_sublistsLen, choose_three]
          exact Nat.min_le_right _ _
        have hmem := (hS.1 t _ _ hk).2.subset ha
        rw [List.mem_sublistsLen] at hmem
        exact ⟨List.Nodup.sublist hmem.1 hdn, fun c hc => hmem.1.subset hc⟩
    · split at ha
      · split at ha
        · simp at ha
        · obtain ⟨c0, hc0, rfl⟩ := List.mem_map.mp ha
          have hk : min 1000 s.deck.length ≤ s.deck.length := Nat.min_le_right _ _
          have hmem := (hS.2 t _ _ hk).2.subset hc0
          refine ⟨by simp, fun c hc => ?_⟩
          rw [List.mem_singleton] at hc
          exact hc ▸ hmem
      · split at ha
        · split at ha
          · simp at ha
          · obtain ⟨c0, hc0, rfl⟩ := List.mem_map.mp ha
            have hk : min 1000 s.deck.length ≤ s.deck.length := Nat.min_le_right _ _
            have hmem := (hS.2 t _ _ hk).2.subset hc0
            refine ⟨by simp, fun c hc => ?_⟩
            rw [List.mem_singleton] at hc
            exact hc ▸ hmem
        · simp at ha

/-- Whatever deck list is handed to the constructor, as long as the in-play
cards together with it form a permutation of the full deck, the constructed
state's four groups form one too (this also covers the `if deck:` quirk, where
an empty deck argument resurrects the full deck: the filter then removes
exactly the in-play cards). -/
theorem mkPokerState_perm {my opp board nd : List Card}
    (hp : (my ++ opp ++ board ++ nd) ~ get_deck) :
    ((mkPokerState my opp board (some nd)).my ++ (mkPokerState my opp board (some nd)).opp ++
        (mkPokerState my opp board (some nd)).board ++
        (mkPokerState my opp board (some nd)).deck) ~ get_deck ∧
      (mkPokerState my opp board (some nd)).my = my := by
  refine ⟨?_, rfl⟩
  rcases nd with _ | ⟨c, cs⟩
  · have hP : (my ++ opp ++ board) ~ get_deck := by simpa using hp
    have hPn : (my ++ opp ++ board).Nodup := hP.nodup_iff.mpr get_deck_nodup
    exact append_filter_not_mem_perm hPn (fun c _ => mem_get_deck c) get_deck_nodup
  · have hnodup : (my ++ opp ++ board ++ c :: cs).Nodup := hp.nodup_iff.mpr get_deck_nodup
    have hdisj : ∀ x ∈ c :: cs, x ∉ my ++ opp ++ board := by
      rw [List.nodup_append] at hnodup
      exact fun x hx hmem => hnodup.2.2 hmem hx
    have hfe : ((c :: cs).filter fun x => !(my ++ opp ++ board).contains x) = c :: cs := by
      rw [List.filter_eq_self]
      intro x hx
      simpa using hdisj x hx
    show (my ++ opp ++ board ++ ((c :: cs).filter fun x => !(my ++ opp ++ board).contains x)) ~
      get_deck
    rw [hfe]
    exact hp

/-- `perform_action` preserves the partition invariant and the hero hand, for
any action of distinct cards drawn from the deck. -/
theorem perform_action_perm {s : PokerState} {a : List Card}
    (hinv : (s.my ++ s.opp ++ s.board ++ s.deck) ~ get_deck)
    (hand : a.Nodup) (hsub : ∀ c ∈ a, c ∈ s.deck) :
    ((s.perform_action a).my ++ (s.perform_action a).opp ++ (s.perform_action a).board ++
        (s.perform_action a).deck) ~ get_deck ∧
      (s.perform_action a).my = s.my := by
  have hfold := erase_fold_perm a s.deck hand hsub
  unfold PokerState.perform_action
  split
  · rename_i hopp
    have hoe : s.opp = [] := List.isEmpty_iff.mp hopp
    refine mkPokerState_perm ?_
    rw [List.perm_iff_count]
    intro x
    have h1 := hinv.count_eq x
    have h2 := hfold.count_eq x
    rw [hoe] at h1
    simp only [List.count_append, List.count_nil] at h1 h2 ⊢
    omega
  · refine mkPokerState_perm ?_
    rw [List.perm_iff_count]
    intro x
    have h1 := hinv.count_eq x
    have h2 := hfold.count_eq x
    simp only [List.count_append] at h1 h2 ⊢
    omega

theorem reachable_perm {o : Oracle} (hS : SampOK o) {c1 c2 : Card} (hne : c1 ≠ c2)
    {s : PokerState} (hr : Reachable o (mkPokerState [c1, c2] [] [] none) s) :
    (s.my ++ s.opp ++ s.board ++ s.deck) ~ get_deck ∧ s.my = [c1, c2] := by
  induction hr with
  | refl =>
    refine ⟨?_, rfl⟩
    have hxn : ([c1, c2] : List Card).Nodup := by simp [hne]
    exact append_filter_not_mem_perm hxn (fun c _ => mem_get_deck c) get_deck_nodup
  | step hr hmem ih =>
    rename_i s0 a t
    have hdn : s0.deck.Nodup := by
      have := ih.1.nodup_iff.mpr get_deck_nodup
      rw [List.nodup_append] at this
      exact this.2.1
    obtain ⟨hand, hsub⟩ := action_cards hS hmem hdn
    exact ⟨(perform_action_perm ih.1 hand hsub).1,
      (perform_action_perm ih.1 hand hsub).2.trans ih.2⟩

/-- Claim C6: every state reachable from a root built from two distinct hero
hole cards keeps the four card groups (hero hand, opponent hand, board, deck)
pairwise disjoint with union exactly the 52-card deck, and never changes the
hero hole cards. -/
theorem reachable_partition_invariant (c1 c2 : Card) (o : Oracle) (hS : SampOK o)
    (hne : c1 ≠ c2) (s : PokerState)
    (hr : Reachable o (mkPokerState [c1, c2] [] [] none) s) :
    (s.my ++ s.opp ++ s.board ++ s.deck).Nodup ∧
    (∀ c : Card, c ∈ s.my ++ s.opp ++ s.board ++ s.deck ↔ c ∈ get_deck) ∧
    s.my = [c1, c2] := by
  obtain ⟨hp, hmy⟩ := reachable_perm hS hne hr
  exact ⟨hp.nodup_iff.mpr get_deck_nodup, fun c => hp.mem_iff, hmy⟩

theorem takeOracle_sampOK : SampOK takeOracle := by
  constructor <;> intro t pop k hk <;>
    exact ⟨by simp [takeOracle, List.length_take]; omega,
      (List.take_sublist k pop).subperm⟩

/-- Witness for C6 at the root state itself, with a concrete contract-abiding
oracle and distinct hole cards A♥ and K♥. -/
theorem reachable_partition_invariant_witness :
    (SampOK takeOracle ∧ (⟨12, 2⟩ : Card) ≠ (⟨11, 2⟩ : Card)) ∧
    (((mkPokerState [⟨12, 2⟩, ⟨11, 2⟩] [] [] none).my ++
        (mkPokerState [⟨12, 2⟩, ⟨11, 2⟩] [] [] none).opp ++
        (mkPokerState [⟨12, 2⟩, ⟨11, 2⟩] [] [] none).board ++
        (mkPokerState [⟨12, 2⟩, ⟨11, 2⟩] [] [] none).deck).Nodup ∧
      (∀ c : Card, c ∈ (mkPokerState [⟨12, 2⟩, ⟨11, 2⟩] [] [] none).my ++
          (mkPokerState [⟨12, 2⟩, ⟨11, 2⟩] [] [] none).opp ++
          (mkPokerState [⟨12, 2⟩, ⟨11, 2⟩] [] [] none).board ++
          (mkPokerState [⟨12, 2⟩, ⟨11, 2⟩] [] [] none).deck ↔ c ∈ get_deck) ∧
      (mkPokerState [⟨12, 2⟩, ⟨11, 2⟩] [] [] none).my = [⟨12, 2⟩, ⟨11, 2⟩]) :=
  ⟨⟨takeOracle_sampOK, by decide⟩,
    reachable_partition_invariant _ _ takeOracle takeOracle_sampOK (by decide) _
      Reachable.refl⟩

/-! ### The sampled action space (claim C7) -/

/-- Claim C7: the action list never exceeds min(1000, the true combinatorial
count) for the state's stage — C(n,2) opponent-hand combinations when the
opponent is unknown, C(n,3) flops when the board is empty, n single cards on
the turn and river (n the deck size); it is exactly the full space (a
permutation of it) when the true count is below 1000, it is empty when the
board is complete, and it is empty when too few cards remain for the draw. -/
theorem get_possible_actions_spec (s : PokerState) (o : Oracle) (t : Nat) (hS : SampOK o) :
    (s.opp = [] →
      (s.deck.length < 2 → s.get_possible_actions o t = []) ∧
      (2 ≤ s.deck.length →
        (s.get_possible_actions o t).length = min 1000 (s.deck.length.choose 2) ∧
        (s.deck.length.choose 2 < 1000 →
          s.get_possible_actions o t ~ s.deck.sublistsLen 2))) ∧
    (s.opp ≠ [] → s.board = [] →
      (s.deck.length < 3 → s.get_possible_actions o t = []) ∧
      (3 ≤ s.deck.length →
        (s.get_possible_actions o t).length = min 1000 (s.deck.length.choose 3) ∧
        (s.deck.length.choose 3 < 1000 →
          s.get_possible_actions o t ~ s.deck.sublistsLen 3))) ∧
    (s.opp ≠ [] → (s.board.length = 3 ∨ s.board.length = 4) →
      (s.deck = [] → s.get_possible_actions o t = []) ∧
      (s.deck ≠ [] →
        (s.get_possible_actions o t).length = min 1000 s.deck.length ∧
        (s.deck.length < 1000 →
          s.get_possible_actions o t ~ s.deck.map fun c => [c]))) ∧
    (s.opp ≠ [] → s.board.length = 5 → s.get_possible_actions o t = []) := by
  obtain ⟨my, opp, board, deck⟩ := s
  unfold PokerState.get_possible_actions
  dsimp only
  refine ⟨?_, ?_, ?_, ?_⟩
  · rintro rfl
    simp only [List.isEmpty_nil, if_true]
    constructor
    · intro hlen
      rw [if_pos hlen]
    · intro hlen
      rw [if_neg (by omega)]
      have hk : min 1000 (deck.length * (deck.length - 1) / 2) ≤
          (deck.sublistsLen 2).length := by
        rw [List.length_sublistsLen, Nat.choose_two_right]
        exact Nat.min_le_right _ _
      obtain ⟨hlen2, hsp⟩ := hS.1 t (deck.sublistsLen 2) _ hk
      refine ⟨by rw [hlen2, Nat.choose_two_right], fun hch => ?_⟩
      refine hsp.perm_of_length_le ?_
      rw [hlen2, List.length_sublistsLen, Nat.choose_two_right]
      rw [Nat.choose_two_right] at hch
      omega
  · intro hopp hboard
    rcases opp with _ | ⟨o1, orest⟩
    · exact absurd rfl hopp
    subst hboard
    simp only [List.isEmpty_cons, Bool.false_eq_true, if_false, List.length_nil,
      beq_self_eq_true, if_true]
    constructor
    · intro hlen
      rw [if_pos hlen]
    · intro hlen
      rw [if_neg (by omega)]
      have hk : min 1000 (deck.length * (deck.length - 1) * (deck.length - 2) / 6) ≤
          (deck.sublistsLen 3).length := by
        rw [List.length_sublistsLen, choose_three]
        exact Nat.min_le_right _ _
      obtain ⟨hlen3, hsp⟩ := hS.1 t (deck.sublistsLen 3) _ hk
      refine ⟨by rw [hlen3, choose_three], fun hch => ?_⟩
      refine hsp.perm_of_length_le ?_
      rw [hlen3, List.length_sublistsLen, choose_three]
      rw [choose_three] at hch
      omega
  · intro hopp hbl
    rcases opp with _ | ⟨o1, orest⟩
    · exact absurd rfl hopp
    have hk : min 1000 deck.length ≤ deck.length := Nat.min_le_right _ _
    obtain ⟨hlenc, hsp⟩ := hS.2 t deck _ hk
    have main : ((o.sampC t deck (min 1000 deck.length)).map fun c => [c]).length =
          min 1000 deck.length ∧
        (deck.length < 1000 →
          ((o.sampC t deck (min 1000 deck.length)).map fun c => [c]) ~
            deck.map fun c => [c]) := by
      refine ⟨by rw [List.length_map, hlenc], fun hch => ?_⟩
      refine List.Perm.map _ ?_
      refine hsp.perm_of_length_le ?_
      rw [hlenc]
      omega
    rcases hbl with hbl | hbl <;> rw [hbl] <;> rcases deck with _ | ⟨d1, drest⟩
    · exact ⟨fun _ => by simp, fun hne => absurd rfl hne⟩
    · refine ⟨fun he => absurd he (by simp), fun _ => by simpa using main⟩
    · exact ⟨fun _ => by simp, fun hne => absurd rfl hne⟩
    · refine ⟨fun he => absurd he (by simp), fun _ => by simpa using main⟩
  · intro hopp hb5
    rcases opp with _ | ⟨o1, orest⟩
    · exact absurd rfl hopp
    rw [hb5]
    rfl

/-- Witness for C7: the spec applied at the full-deck preflop root with a
contract-abiding oracle, specialised to the board-complete conjunct on a
finished deal. -/
theorem get_possible_actions_spec_witness :
    SampOK takeOracle ∧
    ((PokerState.mk [] [⟨0, 0⟩] [⟨1, 0⟩, ⟨2, 0⟩, ⟨3, 0⟩, ⟨4, 0⟩, ⟨5, 0⟩] []).opp ≠ [] →
      (PokerState.mk [] [⟨0, 0⟩] [⟨1, 0⟩, ⟨2, 0⟩, ⟨3, 0⟩, ⟨4, 0⟩, ⟨5, 0⟩] []).board.length = 5 →
      (PokerState.mk [] [⟨0, 0⟩] [⟨1, 0⟩, ⟨2, 0⟩, ⟨3, 0⟩, ⟨4, 0⟩, ⟨5, 0⟩]
        []).get_possible_actions takeOracle 0 = []) :=
  ⟨takeOracle_sampOK,
    (get_possible_actions_spec (PokerState.mk [] [⟨0, 0⟩] [⟨1, 0⟩, ⟨2, 0⟩, ⟨3, 0⟩, ⟨4, 0⟩, ⟨5, 0⟩]
      []) takeOracle 0 takeOracle_sampOK).2.2.2⟩

/-- Claim C5: for every root state, every oracle (hence every behavior of the
Python pseudorandom generator) and every positive iteration count n, the root
node ends with visit count exactly n (each iteration's backpropagation reaches
the root), `mcts` returns root.wins / root.visits, that value lies in [0, 1],
and every rollout payoff produced by `simulate` is 0, 1/2 or 1. -/
theorem mcts_visits_and_range (root_state : PokerState) (o : Oracle) (n : Nat)
    (hn : 0 < n) :
    ((mctsLoop o n (mkMCTSNode root_state o 0) 1).1).visits = n ∧
    mcts root_state o n =
      ((mctsLoop o n (mkMCTSNode root_state o 0) 1).1).wins /
        (((mctsLoop o n (mkMCTSNode root_state o 0) 1).1).visits : ℚ) ∧
    0 ≤ mcts root_state o n ∧ mcts root_state o n ≤ 1 ∧
    (∀ t st, simulate o t st = 0 ∨ simulate o t st = 1 / 2 ∨ simulate o t st = 1) := by
  obtain ⟨hv, hlo, hhi⟩ := mctsLoop_stats o n (mkMCTSNode root_state o 0) 1
  have hv0 : (mkMCTSNode root_state o 0).visits = 0 := rfl
  have hw0 : (mkMCTSNode root_state o 0).wins = 0 := rfl
  rw [hv0] at hv
  rw [hw0] at hlo hhi
  have hvn : ((mctsLoop o n (mkMCTSNode root_state o 0) 1).1).visits = n := by omega
  have hme : mcts root_state o n =
      ((mctsLoop o n (mkMCTSNode root_state o 0) 1).1).wins /
        (((mctsLoop o n (mkMCTSNode root_state o 0) 1).1).visits : ℚ) := rfl
  have hnq : (0 : ℚ) < (n : ℚ) := by exact_mod_cast hn
  refine ⟨hvn, hme, ?_, ?_, fun t st => simulate_cases o t st⟩
  · rw [hme, hvn]
    exact div_nonneg (by linarith) (by linarith)
  · rw [hme, hvn]
    rw [div_le_one hnq]
    linarith

/-- Witness for C5 at a concrete root state, oracle and n = 1. -/
theorem mcts_visits_and_range_witness :
    0 < 1 ∧
    (((mctsLoop trivOracle 1
        (mkMCTSNode (mkPokerState [⟨12, 2⟩, ⟨11, 2⟩] [] [] none) trivOracle 0) 1).1).visits = 1 ∧
    mcts (mkPokerState [⟨12, 2⟩, ⟨11, 2⟩] [] [] none) trivOracle 1 =
      ((mctsLoop trivOracle 1
          (mkMCTSNode (mkPokerState [⟨12, 2⟩, ⟨11, 2⟩] [] [] none) trivOracle 0) 1).1).wins /
        ((((mctsLoop trivOracle 1
          (mkMCTSNode (mkPokerState [⟨12, 2⟩, ⟨11, 2⟩] [] [] none) trivOracle 0) 1).1).visits : ℚ)) ∧
    0 ≤ mcts (mkPokerState [⟨12, 2⟩, ⟨11, 2⟩] [] [] none) trivOracle 1 ∧
    mcts (mkPokerState [⟨12, 2⟩, ⟨11, 2⟩] [] [] none) trivOracle 1 ≤ 1 ∧
    (∀ t st, simulate trivOracle t st = 0 ∨ simulate trivOracle t st = 1 / 2 ∨
      simulate trivOracle t st = 1)) :=
  ⟨by decide, mcts_visits_and_range _ _ 1 (by decide)⟩

/-! ### Duplicate hole cards are not rejected (claim C9) -/

/-- Claim C9 counterexample: with both hero hole cards equal to A♥ nothing
fails and no DuplicateCard error exists — the constructor's in-play filter
silently collapses the duplicate (the deck keeps 51 cards, exactly one A♥
removed), the hero hand still lists the card twice, and `mcts` runs to
completion, returning the ordinary value 1/2 here. -/
theorem duplicate_hole_no_failure :
    (mkPokerState [⟨12, 2⟩, ⟨12, 2⟩] [] [] none).deck.length = 51 ∧
    (mkPokerState [⟨12, 2⟩, ⟨12, 2⟩] [] [] none).my = [⟨12, 2⟩, ⟨12, 2⟩] ∧
    mcts (mkPokerState [⟨12, 2⟩, ⟨12, 2⟩] [] [] none) trivOracle 1 = 1 / 2 := by
  refine ⟨by decide, rfl, ?_⟩
  have key : mcts (mkPokerState [⟨12, 2⟩, ⟨12, 2⟩] [] [] none) trivOracle 1 =
      (0 + simulate trivOracle 1 (mkPokerState [⟨12, 2⟩, ⟨12, 2⟩] [] [] none)) /
        ((1 : Nat) : ℚ) := rfl
  have hs : simulate trivOracle 1 (mkPokerState [⟨12, 2⟩, ⟨12, 2⟩] [] [] none) = 1 / 2 := rfl
  rw [key, hs]
  norm_num

/-- Claim C9 amended: `estimateWinProbability` performs no duplicate-card
check.  When hole1 = hole2 the duplicate is collapsed structurally by the
in-play deck filter (51 cards remain, for every card), and for every oracle and
positive iteration count the query completes normally with an estimate in
[0, 1]. -/
theorem duplicate_hole_amended (c : Card) (o : Oracle) (n : Nat) (hn : 0 < n) :
    (mkPokerState [c, c] [] [] none).deck.length = 51 ∧
    0 ≤ mcts (mkPokerState [c, c] [] [] none) o n ∧
    mcts (mkPokerState [c, c] [] [] none) o n ≤ 1 := by
  refine ⟨?_, ?_, ?_⟩
  · show (get_deck.filter fun x => !(([c, c] ++ [] ++ [] : List Card)).contains x).length = 51
    have he : (get_deck.filter fun x => !(([c, c] ++ [] ++ [] : List Card)).contains x) =
        get_deck.filter (· != c) := by
      refine List.filter_congr fun x _ => ?_
      by_cases hxc : x = c <;> simp [hxc, List.contains, List.elem_eq_mem]
    rw [he, ← List.Nodup.erase_eq_filter get_deck_nodup c,
      List.length_erase_of_mem (mem_get_deck c), get_deck_length]
  all_goals
    obtain ⟨hv, hlo, hhi⟩ := mctsLoop_stats o n (mkMCTSNode (mkPokerState [c, c] [] [] none) o 0) 1
  all_goals
    have hv0 : (mkMCTSNode (mkPokerState [c, c] [] [] none) o 0).visits = 0 := rfl
  all_goals
    have hw0 : (mkMCTSNode (mkPokerState [c, c] [] [] none) o 0).wins = 0 := rfl
  all_goals rw [hv0] at hv
  all_goals rw [hw0] at hlo hhi
  all_goals
    have hvn :
        ((mctsLoop o n (mkMCTSNode (mkPokerState [c, c] [] [] none) o 0) 1).1).visits = n := by
      omega
  all_goals
    have hme : mcts (mkPokerState [c, c] [] [] none) o n =
      ((mctsLoop o n (mkMCTSNode (mkPokerState [c, c] [] [] none) o 0) 1).1).wins /
        (((mctsLoop o n (mkMCTSNode (mkPokerState [c, c] [] [] none) o 0) 1).1).visits : ℚ) := rfl
  all_goals
    have hnq : (0 : ℚ) < (n : ℚ) := by exact_mod_cast hn
  all_goals rw [hme, hvn]
  · exact div_nonneg (by linarith) (by linarith)
  · rw [div_le_one hnq]
    linarith

/-- Witness for the amended C9 at A♥, a concrete oracle and n = 1. -/
theorem duplicate_hole_amended_witness :
    0 < 1 ∧
    ((mkPokerState [(⟨12, 2⟩ : Card), ⟨12, 2⟩] [] [] none).deck.length = 51 ∧
      0 ≤ mcts (mkPokerState [(⟨12, 2⟩ : Card), ⟨12, 2⟩] [] [] none) trivOracle 1 ∧
      mcts (mkPokerState [(⟨12, 2⟩ : Card), ⟨12, 2⟩] [] [] none) trivOracle 1 ≤ 1) :=
  ⟨by decide, duplicate_hole_amended _ trivOracle 1 (by decide)⟩

/-- Witness for C10 at two concrete distinct-card hands: a full house and a
flush. -/
theorem score_length_by_category_witness :
    ([(⟨5, 0⟩ : Card), ⟨5, 1⟩, ⟨5, 2⟩, ⟨2, 0⟩, ⟨2, 1⟩].length = 5 ∧
      [(⟨5, 0⟩ : Card), ⟨5, 1⟩, ⟨5, 2⟩, ⟨2, 0⟩, ⟨2, 1⟩].Nodup ∧
      [(⟨12, 1⟩ : Card), ⟨9, 1⟩, ⟨5, 1⟩, ⟨3, 1⟩, ⟨0, 1⟩].length = 5 ∧
      [(⟨12, 1⟩ : Card), ⟨9, 1⟩, ⟨5, 1⟩, ⟨3, 1⟩, ⟨0, 1⟩].Nodup) ∧
    ((score [⟨5, 0⟩, ⟨5, 1⟩, ⟨5, 2⟩, ⟨2, 0⟩, ⟨2, 1⟩]).length =
        catLen (category [⟨5, 0⟩, ⟨5, 1⟩, ⟨5, 2⟩, ⟨2, 0⟩, ⟨2, 1⟩]) ∧
      (category [⟨5, 0⟩, ⟨5, 1⟩, ⟨5, 2⟩, ⟨2, 0⟩, ⟨2, 1⟩] =
          category [⟨12, 1⟩, ⟨9, 1⟩, ⟨5, 1⟩, ⟨3, 1⟩, ⟨0, 1⟩] →
        (score [⟨5, 0⟩, ⟨5, 1⟩, ⟨5, 2⟩, ⟨2, 0⟩, ⟨2, 1⟩]).length =
          (score [⟨12, 1⟩, ⟨9, 1⟩, ⟨5, 1⟩, ⟨3, 1⟩, ⟨0, 1⟩]).length) ∧
      (tupleLtB (score [⟨5, 0⟩, ⟨5, 1⟩, ⟨5, 2⟩, ⟨2, 0⟩, ⟨2, 1⟩])
          (score [⟨12, 1⟩, ⟨9, 1⟩, ⟨5, 1⟩, ⟨3, 1⟩, ⟨0, 1⟩]) = true ∨
        score [⟨5, 0⟩, ⟨5, 1⟩, ⟨5, 2⟩, ⟨2, 0⟩, ⟨2, 1⟩] =
          score [⟨12, 1⟩, ⟨9, 1⟩, ⟨5, 1⟩, ⟨3, 1⟩, ⟨0, 1⟩] ∨
        tupleLtB (score [⟨12, 1⟩, ⟨9, 1⟩, ⟨5, 1⟩, ⟨3, 1⟩, ⟨0, 1⟩])
          (score [⟨5, 0⟩, ⟨5, 1⟩, ⟨5, 2⟩, ⟨2, 0⟩, ⟨2, 1⟩]) = true) ∧
      ¬(tupleLtB (score [⟨5, 0⟩, ⟨5, 1⟩, ⟨5, 2⟩, ⟨2, 0⟩, ⟨2, 1⟩])
            (score [⟨12, 1⟩, ⟨9, 1⟩, ⟨5, 1⟩, ⟨3, 1⟩, ⟨0, 1⟩]) = true ∧
          tupleLtB (score [⟨12, 1⟩, ⟨9, 1⟩, ⟨5, 1⟩, ⟨3, 1⟩, ⟨0, 1⟩])
            (score [⟨5, 0⟩, ⟨5, 1⟩, ⟨5, 2⟩, ⟨2, 0⟩, ⟨2, 1⟩]) = true)) :=
  ⟨⟨by decide, by decide, by decide, by decide⟩,
    score_length_by_category _ _ (by decide) (by decide) (by decide) (by decide)⟩

end PokerMCTS
